import Mathlib

/-!
Verification of the ForecastHub PatchTST data pipeline
(`src/PatchTST/PatchTST.py`) against its natural-language specification.

The pipeline is embedded shallowly: pandas columns become `List (Option ℚ)`
(a `none` cell is a NaN), tables become lists of named columns or lists of
rows, and each pipeline stage becomes a pure function.  Quantiles use the
numpy/pandas default linear interpolation.  The train/test split sizes
`int(len(dataset) * 0.7)` and `int(len(dataset) * 0.2)` are modelled
exactly, including the IEEE-754 double rounding of the product (`fl` below
rounds a positive rational to the nearest 53-bit significand value, ties to
even), because the float rounding is observable in the result.
-/

namespace ForecastHub

/-- A pandas column: one optional rational per row, `none` is a NaN cell. -/
abbrev Col : Type := List (Option ℚ)

/-- A named-column table (the non-timestamp part of the DataFrame,
columns in DataFrame order). -/
abbrev Table : Type := List (String × Col)

/-- A row of numeric cells (row-major view used by the outlier filter). -/
abbrev Row : Type := List (Option ℚ)

/-! ### Sorting and quantiles (numpy/pandas `quantile`, linear interpolation) -/

/-- Insert a value into a sorted list, keeping it sorted. -/
def insertSorted (x : ℚ) : List ℚ → List ℚ
  | [] => [x]
  | y :: ys => if x ≤ y then x :: y :: ys else y :: insertSorted x ys

/-- Insertion sort on rationals. -/
def sortQ : List ℚ → List ℚ
  | [] => []
  | x :: xs => insertSorted x (sortQ xs)

/-- The `q`-quantile of a list of values with linear interpolation, as
computed by `numpy.percentile` / `pandas.quantile` (default method):
position `p = q·(n−1)` in the sorted data, interpolating linearly between
the neighbouring order statistics. -/
def quantileOf (vals : List ℚ) (q : ℚ) : ℚ :=
  let s := sortQ vals
  let n := s.length
  let p := q * ((n : ℚ) - 1)
  let i := (⌊p⌋).toNat
  let a := s.getD i 0
  let b := s.getD (i + 1) a
  a + (p - ⌊p⌋) * (b - a)

/-- Present (non-NaN) values of a column, in row order; pandas quantile
and the outlier bounds skip NaN cells. -/
def presentVals (c : Col) : List ℚ := c.filterMap id

/-! ### Outlier filter (source lines 51–57)

`Q1`, `Q3` and `IQR` are computed once per numeric column on the input
table; a row is dropped when any numeric cell lies strictly outside
`[Q1 − 1.5·IQR, Q3 + 1.5·IQR]`.  A NaN cell never triggers a drop
(pandas comparisons with NaN are `False`). -/

/-- Column `j` of a row-major table. -/
def colAt (rows : List Row) (j : ℕ) : Col := rows.map (fun r => r.getD j none)

/-- First quartile of column `j` (NaN-skipping). -/
def q1At (rows : List Row) (j : ℕ) : ℚ := quantileOf (presentVals (colAt rows j)) (1/4)

/-- Third quartile of column `j` (NaN-skipping). -/
def q3At (rows : List Row) (j : ℕ) : ℚ := quantileOf (presentVals (colAt rows j)) (3/4)

/-- Interquartile range of column `j`. -/
def iqrAt (rows : List Row) (j : ℕ) : ℚ := q3At rows j - q1At rows j

/-- Lower outlier bound `Q1 − 1.5·IQR` of column `j`. -/
def loBound (rows : List Row) (j : ℕ) : ℚ := q1At rows j - 3/2 * iqrAt rows j

/-- Upper outlier bound `Q3 + 1.5·IQR` of column `j`. -/
def hiBound (rows : List Row) (j : ℕ) : ℚ := q3At rows j + 3/2 * iqrAt rows j

/-- `((row < Q1 − 1.5·IQR) | (row > Q3 + 1.5·IQR)).any(axis=1)` for one row:
does some numeric cell among the first `ncols` columns violate its bounds?
NaN cells compare `False` on both sides and never violate. -/
def rowViolates (rows : List Row) (ncols : ℕ) (r : Row) : Bool :=
  (List.range ncols).any (fun j =>
    match r.getD j none with
    | none => false
    | some v => decide (v < loBound rows j) || decide (hiBound rows j < v))

/-- The outlier filter `dataset = dataset[~mask]`: keep exactly the rows
without a violating cell, unchanged and in order. -/
def outlierFilter (ncols : ℕ) (rows : List Row) : List Row :=
  rows.filter (fun r => ! rowViolates rows ncols r)

/-! ### Forward and backward fill (source lines 60–61 and 86–87) -/

/-- Forward fill with a carried last-seen value: each `none` cell takes the
most recent earlier `some` (or the incoming carry). -/
def ffillAux (carry : Option ℚ) : Col → Col
  | [] => []
  | none :: rest => carry :: ffillAux carry rest
  | some x :: rest => some x :: ffillAux (some x) rest

/-- `Series.ffill`: each missing cell takes the most recent earlier
non-missing value in the column. -/
def ffill (c : Col) : Col := ffillAux none c

/-- `Series.bfill`: each missing cell takes the nearest later non-missing
value; equivalently, forward fill on the reversed column. -/
def bfill (c : Col) : Col := (ffillAux none c.reverse).reverse

/-! ### Robust scaler (source lines 70–77)

`sklearn.preprocessing.RobustScaler` with defaults: per column, centre at
the median, scale by `Q3 − Q1` (a zero scale is replaced by 1), then map
`x ↦ (x − centre)/scale`. -/

/-- Fitted centre of the robust scaler for one column: the median. -/
def robustCenter (vals : List ℚ) : ℚ := quantileOf vals (1/2)

/-- Fitted scale of the robust scaler for one column: `Q3 − Q1`, with a
zero scale replaced by 1 (sklearn `_handle_zeros_in_scale`). -/
def robustScaleOf (vals : List ℚ) : ℚ :=
  let s := quantileOf vals (3/4) - quantileOf vals (1/4)
  if s = 0 then 1 else s

/-- Robust-scale one column: fit centre/scale on its present values and
transform every present cell. -/
def robustTransformO (c : Col) : Col :=
  let ctr := robustCenter (presentVals c)
  let scl := robustScaleOf (presentVals c)
  c.map (Option.map (fun x => (x - ctr) / scl))

/-! ### Lag and rolling features (source lines 80–83)

`shift(1)` moves every cell one row later, leaving a NaN in row 0.
`rolling(window=5).agg` yields, at row `i`, the aggregate of rows
`i−4 … i` when all five cells are present (the default
`min_periods = window` makes the result NaN otherwise, in particular on
the first four rows).  The aggregator is a parameter: the mean is
`meanQ`; the sample standard deviation involves a real square root whose
numeric value no claim depends on, so theorems quantify over the
aggregator. -/

/-- `Series.shift(1)`: row `i` of the result is row `i−1` of the input,
row 0 is NaN. -/
def shift1O (c : Col) : Col := (none :: c).take c.length

/-- Trailing rolling window of width `w` with aggregator `f`
(`min_periods = w`): row `i` is `f` of rows `i+1−w … i` when `w ≤ i+1`
and all those cells are present, NaN otherwise. -/
def rollingApplyO (w : ℕ) (f : List ℚ → ℚ) (c : Col) : Col :=
  (List.range c.length).map (fun i =>
    if w ≤ i + 1 then
      let win := (c.drop (i + 1 - w)).take w
      if win.all Option.isSome then some (f (win.filterMap id)) else none
    else none)

/-- Mean of a list of rationals. -/
def meanQ (vals : List ℚ) : ℚ := vals.sum / vals.length

/-! ### The column-level pipeline stages after the outlier filter -/

/-- Calendar fields of one timestamp, each already a plain number
(source lines 64–67). -/
structure Ts where
  dow : ℚ
  dom : ℚ
  month : ℚ
  hour : ℚ

/-- Feature engineering, calendar part: append `day_of_week`,
`day_of_month`, `month`, `hour` derived from the timestamp column
(source lines 64–67). -/
def calendarStage (ts : List Ts) (t : Table) : Table :=
  t ++ [("day_of_week", ts.map (fun x => some x.dow)),
        ("day_of_month", ts.map (fun x => some x.dom)),
        ("month", ts.map (fun x => some x.month)),
        ("hour", ts.map (fun x => some x.hour))]

/-- Scaling stage: `scaler.fit_transform(dataset.iloc[:, 1:])` fits and
transforms every non-timestamp column present at that point
(source lines 70–77). -/
def scaleStage (t : Table) : Table :=
  t.map (fun p => (p.1, robustTransformO p.2))

/-- Lag/rolling stage (source lines 80–83): for every column in the
snapshot `dataset.columns[1:]` taken at loop entry, append
`{col}_lag1`, `{col}_rolling_mean` and `{col}_rolling_std`, in loop
order.  `stdf` is the rolling standard-deviation aggregator. -/
def lagRollingStage (stdf : List ℚ → ℚ) (t : Table) : Table :=
  t ++ t.flatMap (fun p =>
    [(p.1 ++ "_lag1", shift1O p.2),
     (p.1 ++ "_rolling_mean", rollingApplyO 5 meanQ p.2),
     (p.1 ++ "_rolling_std", rollingApplyO 5 stdf p.2)])

/-- Fill every column forward then backward
(source lines 60–61 / 86–87). -/
def fillTable (t : Table) : Table :=
  t.map (fun p => (p.1, bfill (ffill p.2)))

/-- The code's stage order after the outlier filter: calendar features,
then robust scaling, then lag/rolling derivation, then the second
forward/backward fill (source lines 64–87). -/
def codeTail (stdf : List ℚ → ℚ) (ts : List Ts) (t : Table) : Table :=
  fillTable (lagRollingStage stdf (scaleStage (calendarStage ts t)))

/-- The stage order claimed by the spec (`raw → filtered → augmented →
scaled`): the whole augmentation, fills included, happens before
scaling.  Kept only to compare with `codeTail`. -/
def specOrderTail (stdf : List ℚ → ℚ) (ts : List Ts) (t : Table) : Table :=
  scaleStage (fillTable (lagRollingStage stdf (calendarStage ts t)))

/-! ### The chronological split (source lines 90–97)

`num_train = int(len(dataset) * 0.7)` and `num_test = int(len(dataset) * 0.2)`
are computed in IEEE-754 double arithmetic: the literals `0.7` and `0.2`
denote the nearest doubles `dbl07` and `dbl02`, the product `N * 0.7` is
rounded once to the nearest double (ties to even), and `int` truncates.
`fl` models that product rounding exactly for positive rationals in the
normal range (the integer `N` itself, being below `2^53`, converts to
double exactly).  This matters: `int(90 * 0.7) = 62`, not `⌊0.7·90⌋ = 63`. -/

/-- Round an exact rational position to the nearest integer, ties to even
— the significand rounding step of IEEE-754 round-to-nearest. -/
def roundEven (y : ℚ) : ℤ :=
  if y - ⌊y⌋ < 1/2 then ⌊y⌋
  else if 1/2 < y - ⌊y⌋ then ⌊y⌋ + 1
  else if ⌊y⌋ % 2 = 0 then ⌊y⌋ else ⌊y⌋ + 1

/-- Round a nonnegative rational to the nearest IEEE-754 double value
(53-bit significand, round to nearest, ties to even; overflow and
subnormals are outside the range this model is used on). -/
def fl (x : ℚ) : ℚ :=
  if 0 < x then
    (roundEven (x / 2 ^ (Int.log 2 x - 52)) : ℚ) * 2 ^ (Int.log 2 x - 52)
  else 0

/-- The IEEE-754 double nearest to `0.7` (which is below `7/10`). -/
def dbl07 : ℚ := 3152519739159347 / 4503599627370496

/-- The IEEE-754 double nearest to `0.2` (which is above `1/5`). -/
def dbl02 : ℚ := 3602879701896397 / 18014398509481984

/-- `num_train = int(len(dataset) * 0.7)` (source line 90). -/
def numTrain (N : ℕ) : ℕ := (⌊fl ((N : ℚ) * dbl07)⌋).toNat

/-- `num_test = int(len(dataset) * 0.2)` (source line 91). -/
def numTest (N : ℕ) : ℕ := (⌊fl ((N : ℚ) * dbl02)⌋).toNat

/-- `num_valid = len(dataset) - num_train - num_test` (source line 92). -/
def numValid (N : ℕ) : ℕ := N - numTrain N - numTest N

/-- `dataset.iloc[:num_train]` (source line 95). -/
def trainSeg {α : Type} (N : ℕ) (xs : List α) : List α := xs.take (numTrain N)

/-- `dataset.iloc[num_train : num_train + num_valid]` (source line 96). -/
def validSeg {α : Type} (N : ℕ) (xs : List α) : List α :=
  (xs.drop (numTrain N)).take (numValid N)

/-- `dataset.iloc[num_train + num_valid :]` (source line 97). -/
def testSeg {α : Type} (N : ℕ) (xs : List α) : List α :=
  xs.drop (numTrain N + numValid N)

/-! ### The sliding-window indexer

Modelled from the spec: the `ForecastDFDataset` class is imported from
`models.ForecastDFDataset`, which is not part of this repository's
sources, so the Sliding-Window Indexer is modelled from §4.5 of the
specification: a stride-1 window over start indices
`i = 0 … segment_length − context_length − prediction_length`, context
`[i, i+context_length)`, target
`[i+context_length, i+context_length+prediction_length)`, all channels at
once, and an empty dataset when the segment is too short. -/

/-- One (context, target) sample over rows of type `α`. -/
structure WindowSample (α : Type) where
  context : List α
  target : List α
deriving DecidableEq

/-- Modelled from the spec: the ordered collection of all valid
WindowSamples of one segment (spec §4.5). -/
def windowedDataset {α : Type} (ctx pred : ℕ) (seg : List α) :
    List (WindowSample α) :=
  (List.range (seg.length + 1 - (ctx + pred))).map (fun i =>
    ⟨(seg.drop i).take ctx, (seg.drop (i + ctx)).take pred⟩)

/-! ### The evaluation reducer (source lines 207–215) -/

/-- `sklearn.metrics.mean_squared_error`: the mean of squared differences
of two equally long flat sequences. -/
def mean_squared_error (yTrue yPred : List ℚ) : ℚ :=
  (List.zipWith (fun a b => (a - b) ^ 2) yTrue yPred).sum / yTrue.length

/-- The evaluation tail of the source: flatten predictions and ground
truth in matching order and take the mean squared error
(source lines 208–212). -/
def evalReducer (predictions label_ids : List (List ℚ)) : ℚ :=
  mean_squared_error label_ids.flatten predictions.flatten

/-! ### Row-major composition of the outlier filter with the fills -/

/-- The first `ncols` columns of a row-major table, column-major. -/
def tableCols (ncols : ℕ) (rows : List Row) : List Col :=
  (List.range ncols).map (fun j => colAt rows j)

/-- The Outlier & Imputation Filter as a whole (source lines 51–61):
drop outlier rows, then forward-fill and backward-fill each column. -/
def filterImpute (ncols : ℕ) (rows : List Row) : List Col :=
  (tableCols ncols (outlierFilter ncols rows)).map (fun c => bfill (ffill c))

/-! ### Concrete example data used by closed theorems -/

/-- A processed single-channel column of five rows. -/
def leakA : Col := [some 0, some 1, some 2, some 3, some 4]

/-- `leakA` with only row 3 (a validation/test-range row) changed. -/
def leakB : Col := [some 0, some 1, some 2, some 50, some 4]

/-- A one-column table whose IQR is zero but which is not constant. -/
def zeroIqrRows : List Row := [[some 0], [some 0], [some 0], [some 0], [some 5]]

/-- A two-column table: column 0 has its only present value in row 0,
and column 1 makes row 0 an outlier. -/
def c8rows : List Row :=
  [[some 5, some 100], [none, some 0], [none, some 0], [none, some 0], [none, some 1]]

/-- Five identical timestamps (their calendar fields all zero). -/
def ts5 : List Ts := List.replicate 5 ⟨0, 0, 0, 0⟩

/-- A one-channel table of five rows. -/
def tbl1 : Table := [("ch", [some 0, some 1, some 2, some 3, some 10])]

/-! ## Helper lemmas on the rounding model -/

lemma roundEven_close (y : ℚ) : |(roundEven y : ℚ) - y| ≤ 1/2 := by
  have h1 : (⌊y⌋ : ℚ) ≤ y := Int.floor_le y
  have h2 : y < ⌊y⌋ + 1 := Int.lt_floor_add_one y
  unfold roundEven
  split_ifs with ha hb hc <;> rw [abs_le] <;> push_cast <;>
    refine ⟨by linarith, by linarith⟩

lemma roundEven_nonneg {y : ℚ} (hy : 0 ≤ y) : 0 ≤ roundEven y := by
  have h0 : 0 ≤ ⌊y⌋ := Int.floor_nonneg.mpr hy
  unfold roundEven
  split_ifs <;> omega

lemma fl_nonneg (x : ℚ) : 0 ≤ fl x := by
  unfold fl
  split_ifs with hx
  · have hy : (0:ℚ) ≤ x / 2 ^ (Int.log 2 x - 52) := by positivity
    exact mul_nonneg (by exact_mod_cast roundEven_nonneg hy) (by positivity)
  · exact le_refl 0

lemma fl_le {x : ℚ} (hx : 0 < x) : fl x ≤ x + x / 2 ^ 53 := by
  rw [fl, if_pos hx]
  set e : ℤ := Int.log 2 x - 52 with he
  have h2e : (0:ℚ) < 2 ^ e := by positivity
  have hclose := roundEven_close (x / 2 ^ e)
  rw [abs_le] at hclose
  have hieee : (roundEven (x / 2 ^ e) : ℚ) ≤ x / 2 ^ e + 1/2 := by linarith [hclose.2]
  have hlow : (2:ℚ) ^ Int.log 2 x ≤ x := Int.zpow_log_le_self (by norm_num) hx
  have hsplit : (2:ℚ) ^ Int.log 2 x = 2 ^ e * 2 ^ (52:ℤ) := by
    rw [← zpow_add₀ (by norm_num : (2:ℚ) ≠ 0)]
    congr 1
    omega
  have hbound : (2:ℚ) ^ e * 2 ^ (52:ℤ) ≤ x := by rw [← hsplit]; exact hlow
  have h52 : (2:ℚ) ^ (52:ℤ) = 2 ^ (52:ℕ) := by norm_num
  rw [h52] at hbound
  calc (roundEven (x / 2 ^ e) : ℚ) * 2 ^ e
      ≤ (x / 2 ^ e + 1/2) * 2 ^ e := mul_le_mul_of_nonneg_right hieee (le_of_lt h2e)
    _ = x + 2 ^ e / 2 := by field_simp; ring
    _ ≤ x + x / 2 ^ 53 := by
        have hd : (2:ℚ) ^ e / 2 ≤ x / 2 ^ 53 := by
          rw [div_le_div_iff₀ (by norm_num) (by norm_num : (0:ℚ) < 2 ^ 53)]
          have hps : (2:ℚ) ^ e * 2 ^ (53:ℕ) = 2 ^ e * 2 ^ (52:ℕ) * 2 := by
            rw [pow_succ]
            ring
          rw [hps]
          linarith
        linarith

lemma floorFl_le {x : ℚ} (hx : 0 < x) : ((⌊fl x⌋).toNat : ℚ) ≤ x + x / 2 ^ 53 := by
  have h0 : 0 ≤ ⌊fl x⌋ := Int.floor_nonneg.mpr (fl_nonneg x)
  have hcast : ((⌊fl x⌋).toNat : ℚ) = ((⌊fl x⌋ : ℤ) : ℚ) := by
    norm_cast
    omega
  rw [hcast]
  exact le_trans (Int.floor_le (fl x)) (fl_le hx)

/-- The two truncated split sizes never exceed the row count, so the
Python `int` subtraction producing `num_valid` stays nonnegative. -/
lemma split_sizes_le (N : ℕ) : numTrain N + numTest N ≤ N := by
  rcases Nat.eq_zero_or_pos N with h | h
  · subst h
    simp [numTrain, numTest, fl]
  · have hN1 : (1:ℚ) ≤ (N:ℚ) := by exact_mod_cast h
    have hx7 : (0:ℚ) < (N:ℚ) * dbl07 := by
      apply mul_pos (by linarith)
      norm_num [dbl07]
    have hx2 : (0:ℚ) < (N:ℚ) * dbl02 := by
      apply mul_pos (by linarith)
      norm_num [dbl02]
    have t7 : ((numTrain N : ℕ) : ℚ) ≤ (N:ℚ) * dbl07 + (N:ℚ) * dbl07 / 2 ^ 53 :=
      floorFl_le hx7
    have t2 : ((numTest N : ℕ) : ℚ) ≤ (N:ℚ) * dbl02 + (N:ℚ) * dbl02 / 2 ^ 53 :=
      floorFl_le hx2
    have key : (N:ℚ) * (dbl07 + dbl07/2^53 + dbl02 + dbl02/2^53) < (N:ℚ) * 1 := by
      apply mul_lt_mul_of_pos_left ?_ (by linarith)
      norm_num [dbl07, dbl02]
    have hlt : ((numTrain N + numTest N : ℕ) : ℚ) < (N : ℚ) := by
      push_cast
      push_cast at t7 t2
      nlinarith [t7, t2, key]
    have : numTrain N + numTest N < N := by exact_mod_cast hlt
    omega

/-- Characterize `Int.log 2` by bracketing powers of two. -/
lemma int_log_eq_of {x : ℚ} {e : ℤ} (hx : 0 < x) (h1 : (2:ℚ) ^ e ≤ x)
    (h2 : x < (2:ℚ) ^ (e + 1)) : Int.log 2 x = e := by
  have ha : e ≤ Int.log 2 x := (Int.zpow_le_iff_le_log (by norm_num) hx).mp h1
  have hb2 : Int.log 2 x < e + 1 := (Int.lt_zpow_iff_log_lt (by norm_num) hx).mp h2
  omega

/-- Evaluate `fl` from an explicit exponent bracket and significand. -/
lemma fl_eval {x : ℚ} {e m : ℤ} (hx : 0 < x)
    (h1 : (2:ℚ) ^ (e + 52) ≤ x) (h2 : x < (2:ℚ) ^ (e + 52 + 1))
    (hm : roundEven (x / 2 ^ e) = m) : fl x = m * 2 ^ e := by
  have hlog : Int.log 2 x = e + 52 := int_log_eq_of hx h1 h2
  rw [fl, if_pos hx, hlog]
  have hsub : e + 52 - 52 = e := by omega
  rw [hsub, hm]

/-- Evaluate `roundEven` when the fractional part is below a half. -/
lemma roundEven_eval_low {y : ℚ} {n : ℤ} (hny : ⌊y⌋ = n) (hr : y - n < 1/2) :
    roundEven y = n := by
  rw [roundEven, hny, if_pos hr]

/-- Evaluate `roundEven` at an exact tie with an odd floor. -/
lemma roundEven_eval_tie_odd {y : ℚ} {n : ℤ} (hny : ⌊y⌋ = n) (hr : y - n = 1/2)
    (hodd : n % 2 = 1) : roundEven y = n + 1 := by
  have c1 : ¬ (y - (n:ℚ) < 1/2) := by rw [hr]; norm_num
  have c2 : ¬ ((1:ℚ)/2 < y - (n:ℚ)) := by rw [hr]; norm_num
  have c3 : ¬ (n % 2 = 0) := by omega
  rw [roundEven, hny, if_neg c1, if_neg c2, if_neg c3]

/-- `int(90 * 0.7)` evaluates to 62 under IEEE-754 double arithmetic:
`90 * 0.7` is `62.99999999999999289…`, strictly below 63. -/
lemma numTrain_90 : numTrain 90 = 62 := by
  have hc : ((90:ℕ):ℚ) * dbl07 = 283726776524341230/4503599627370496 := by
    norm_num [dbl07]
  have hx : (0:ℚ) < ((90:ℕ):ℚ) * dbl07 := by rw [hc]; norm_num
  have hfl : fl (((90:ℕ):ℚ) * dbl07) = (8866461766385663 : ℤ) * 2 ^ (-47:ℤ) := by
    apply fl_eval hx
    · rw [hc]
      norm_num
    · rw [hc]
      norm_num
    · apply roundEven_eval_low
      · rw [Int.floor_eq_iff]
        · rw [hc]; norm_num
      · rw [hc]; norm_num
  rw [numTrain, hfl]
  have hfloor : ⌊((8866461766385663 : ℤ) : ℚ) * 2 ^ (-47:ℤ)⌋ = 62 := by
    rw [Int.floor_eq_iff]
    · norm_num
  rw [hfloor]
  rfl

/-- `int(5 * 0.7)` evaluates to 3: the product `5 * 0.7` rounds (tie to
even) to exactly `3.5`. -/
lemma numTrain_5 : numTrain 5 = 3 := by
  have hc : ((5:ℕ):ℚ) * dbl07 = 15762598695796735/4503599627370496 := by
    norm_num [dbl07]
  have hx : (0:ℚ) < ((5:ℕ):ℚ) * dbl07 := by rw [hc]; norm_num
  have hfl : fl (((5:ℕ):ℚ) * dbl07) = (7881299347898368 : ℤ) * 2 ^ (-51:ℤ) := by
    apply fl_eval hx
    · rw [hc]
      norm_num
    · rw [hc]
      norm_num
    · have := roundEven_eval_tie_odd (y := ((5:ℕ):ℚ) * dbl07 / 2 ^ (-51:ℤ))
        (n := 7881299347898367) ?_ ?_ (by norm_num)
      · exact this
      · rw [Int.floor_eq_iff]
        · rw [hc]; norm_num
      · rw [hc]; norm_num
  rw [numTrain, hfl]
  have hfloor : ⌊((7881299347898368 : ℤ) : ℚ) * 2 ^ (-51:ℤ)⌋ = 3 := by
    rw [Int.floor_eq_iff]
    · norm_num
  rw [hfloor]
  rfl

/-! ## Claim theorems -/

/-- C1: for every segment, context length and prediction length, the
windowed dataset has exactly `max 0 (segment_length − context_length −
prediction_length + 1)` samples, and a segment shorter than
`context_length + prediction_length` yields an empty dataset rather than
an error. -/
theorem C1_window_count {α : Type} (c p : ℕ) (seg : List α) :
    ((windowedDataset c p seg).length : ℤ) = max 0 ((seg.length : ℤ) - c - p + 1)
    ∧ (seg.length < c + p → windowedDataset c p seg = []) := by
  constructor
  · simp only [windowedDataset, List.length_map, List.length_range]
    rw [max_def]
    split_ifs with h <;> omega
  · intro h
    have h0 : seg.length + 1 - (c + p) = 0 := by omega
    simp [windowedDataset, h0]

theorem C1_window_count_witness :
    (((windowedDataset 2 1 [(0:ℚ), 1, 2, 3]).length : ℤ) =
        max 0 (([(0:ℚ), 1, 2, 3].length : ℤ) - 2 - 1 + 1))
    ∧ ([(0:ℚ)].length < 1 + 1 ∧ windowedDataset 1 1 [(0:ℚ)] = []) :=
  ⟨(C1_window_count 2 1 [(0:ℚ), 1, 2, 3]).1,
   by decide, (C1_window_count 1 1 [(0:ℚ)]).2 (by decide)⟩

/-- C2 (amended): for every `N`, `num_valid = N − num_train − num_test`,
the three sizes sum to `N`, and the three `iloc` ranges partition the
table contiguously, in chronological order, with no gaps or overlaps.
(`num_train` and `num_test` are the IEEE-double truncations the code
computes, which need not equal `⌊0.7·N⌋` and `⌊0.2·N⌋` exactly.) -/
theorem C2_split_partition {α : Type} (N : ℕ) (xs : List α) (h : xs.length = N) :
    numTrain N + numValid N + numTest N = N
    ∧ trainSeg N xs ++ (validSeg N xs ++ testSeg N xs) = xs
    ∧ (trainSeg N xs).length = numTrain N
    ∧ (validSeg N xs).length = numValid N
    ∧ (testSeg N xs).length = numTest N := by
  have hb := split_sizes_le N
  have hv : numValid N = N - numTrain N - numTest N := rfl
  subst h
  refine ⟨by omega, ?_, ?_, ?_, ?_⟩
  · unfold trainSeg validSeg testSeg
    rw [← List.drop_drop, List.take_append_drop, List.take_append_drop]
  · rw [trainSeg, List.length_take]
    omega
  · rw [validSeg, List.length_take, List.length_drop]
    omega
  · rw [testSeg, List.length_drop]
    omega

theorem C2_split_partition_witness :
    numTrain 5 + numValid 5 + numTest 5 = 5
    ∧ trainSeg 5 (List.range 5) ++ (validSeg 5 (List.range 5) ++ testSeg 5 (List.range 5)) =
        List.range 5
    ∧ (trainSeg 5 (List.range 5)).length = numTrain 5
    ∧ (validSeg 5 (List.range 5)).length = numValid 5
    ∧ (testSeg 5 (List.range 5)).length = numTest 5 :=
  C2_split_partition 5 (List.range 5) (by simp)

/-- C2 counterexample: at `N = 90` the code's `num_train = int(90 * 0.7)`
is 62 (the double product is `62.99999999999999289…`), while
`⌊0.7·90⌋ = 63`, so `num_train = floor(0.7·N)` fails as stated. -/
theorem C2_floor_formula_cex :
    numTrain 90 = 62 ∧ ⌊(0.7:ℚ) * 90⌋ = 63 := by
  refine ⟨numTrain_90, ?_⟩
  rw [Int.floor_eq_iff]
  norm_num

unseal Rat.mul Rat.add Rat.inv Rat.sub in
/-- C3: the robust scaler is fitted on the full column before the
chronological split, so scaled training-segment values depend on rows in
the validation/test index range: `leakA` and `leakB` agree on every
training row (index < `num_train 5 = 3`) and on row 4, differing only in
row 3, yet their scaled training segments differ. -/
theorem C3_scaler_leakage :
    leakA.take (numTrain 5) = leakB.take (numTrain 5)
    ∧ leakA.drop 4 = leakB.drop 4
    ∧ leakA ≠ leakB
    ∧ (robustTransformO leakA).take (numTrain 5) ≠
        (robustTransformO leakB).take (numTrain 5) := by
  rw [numTrain_5]
  decide

/-! Column-name bookkeeping for the feature/scaling stages. -/

lemma scaleStage_names (u : Table) : (scaleStage u).map Prod.fst = u.map Prod.fst := by
  simp [scaleStage, List.map_map, Function.comp_def]

lemma fillTable_names (u : Table) : (fillTable u).map Prod.fst = u.map Prod.fst := by
  simp [fillTable, List.map_map, Function.comp_def]

lemma calendarStage_names (ts : List Ts) (t : Table) :
    (calendarStage ts t).map Prod.fst =
      t.map Prod.fst ++ ["day_of_week", "day_of_month", "month", "hour"] := by
  simp [calendarStage]

lemma lagRollingStage_names (stdf : List ℚ → ℚ) (u : Table) :
    (lagRollingStage stdf u).map Prod.fst
      = u.map Prod.fst ++ (u.map Prod.fst).flatMap
          (fun n => [n ++ "_lag1", n ++ "_rolling_mean", n ++ "_rolling_std"]) := by
  simp [lagRollingStage, List.map_flatMap, List.flatMap_map, Function.comp_def]

lemma lagRollingStage_length (stdf : List ℚ → ℚ) (u : Table) :
    (lagRollingStage stdf u).length = 4 * u.length := by
  induction u with
  | nil => rfl
  | cons p u ih =>
      simp only [lagRollingStage, List.length_append] at ih ⊢
      simp only [List.flatMap_cons, List.length_cons, List.length_append]
      simp only [List.length_cons, List.length_nil] at ih ⊢
      omega

unseal Rat.mul Rat.add Rat.inv Rat.sub in
/-- C4 counterexample: with a concrete five-row one-channel table, the
code's pipeline (scale, then derive lag/rolling) and the spec's claimed
order (derive lag/rolling, then scale everything) produce the same column
names but different values in the `ch_lag1` column — so not every final
column has been transformed by the fitted robust scaler. -/
theorem C4_scaling_order_cex :
    (codeTail meanQ ts5 tbl1).lookup "ch_lag1" ≠
        (specOrderTail meanQ ts5 tbl1).lookup "ch_lag1"
    ∧ (codeTail meanQ ts5 tbl1).map Prod.fst =
        (specOrderTail meanQ ts5 tbl1).map Prod.fst := by
  decide

/-- C4 (amended): scaling happens after the calendar part of feature
augmentation but before the lag/rolling part: the final schema is the
calendar-augmented columns followed by their derived triples; every base
column appears robust-scaled (then filled); every derived channel is
computed **from the already-scaled column** (then filled), not
transformed by the scaler; and the scaler was fitted on strictly fewer
columns than the final table has. -/
theorem C4_scaling_order (stdf : List ℚ → ℚ) (ts : List Ts) (t : Table) :
    (codeTail stdf ts t).map Prod.fst
      = (calendarStage ts t).map Prod.fst
        ++ ((calendarStage ts t).map Prod.fst).flatMap
            (fun n => [n ++ "_lag1", n ++ "_rolling_mean", n ++ "_rolling_std"])
    ∧ (∀ p ∈ calendarStage ts t,
        (p.1, bfill (ffill (robustTransformO p.2))) ∈ codeTail stdf ts t
        ∧ (p.1 ++ "_lag1", bfill (ffill (shift1O (robustTransformO p.2))))
            ∈ codeTail stdf ts t
        ∧ (p.1 ++ "_rolling_mean",
            bfill (ffill (rollingApplyO 5 meanQ (robustTransformO p.2))))
            ∈ codeTail stdf ts t
        ∧ (p.1 ++ "_rolling_std",
            bfill (ffill (rollingApplyO 5 stdf (robustTransformO p.2))))
            ∈ codeTail stdf ts t)
    ∧ (scaleStage (calendarStage ts t)).length < (codeTail stdf ts t).length := by
  refine ⟨?_, ?_, ?_⟩
  · rw [codeTail, fillTable_names, lagRollingStage_names, scaleStage_names]
  · intro p hp
    have hp1 : (p.1, robustTransformO p.2) ∈ scaleStage (calendarStage ts t) :=
      List.mem_map_of_mem _ hp
    have hbase : (p.1, robustTransformO p.2) ∈
        lagRollingStage stdf (scaleStage (calendarStage ts t)) :=
      List.mem_append_left _ hp1
    have hlag : (p.1 ++ "_lag1", shift1O (robustTransformO p.2)) ∈
        lagRollingStage stdf (scaleStage (calendarStage ts t)) := by
      apply List.mem_append_right
      exact List.mem_flatMap.mpr ⟨(p.1, robustTransformO p.2), hp1, by simp⟩
    have hmean : (p.1 ++ "_rolling_mean", rollingApplyO 5 meanQ (robustTransformO p.2)) ∈
        lagRollingStage stdf (scaleStage (calendarStage ts t)) := by
      apply List.mem_append_right
      exact List.mem_flatMap.mpr ⟨(p.1, robustTransformO p.2), hp1, by simp⟩
    have hstd : (p.1 ++ "_rolling_std", rollingApplyO 5 stdf (robustTransformO p.2)) ∈
        lagRollingStage stdf (scaleStage (calendarStage ts t)) := by
      apply List.mem_append_right
      exact List.mem_flatMap.mpr ⟨(p.1, robustTransformO p.2), hp1, by simp⟩
    exact ⟨List.mem_map_of_mem _ hbase, List.mem_map_of_mem _ hlag,
      List.mem_map_of_mem _ hmean, List.mem_map_of_mem _ hstd⟩
  · rw [codeTail, fillTable, List.length_map, lagRollingStage_length]
    have h4 : 4 ≤ (scaleStage (calendarStage ts t)).length := by
      simp [scaleStage, calendarStage]
    omega

unseal Rat.mul Rat.add Rat.inv Rat.sub in
theorem C4_scaling_order_witness :
    ("ch", bfill (ffill (robustTransformO [some 0, some 1, some 2, some 3, some 10])))
        ∈ codeTail meanQ ts5 tbl1
    ∧ ("ch" ++ "_lag1",
        bfill (ffill (shift1O (robustTransformO [some 0, some 1, some 2, some 3, some 10]))))
        ∈ codeTail meanQ ts5 tbl1 :=
  ⟨((C4_scaling_order meanQ ts5 tbl1).2.1
      ("ch", [some 0, some 1, some 2, some 3, some 10]) (by decide)).1,
   ((C4_scaling_order meanQ ts5 tbl1).2.1
      ("ch", [some 0, some 1, some 2, some 3, some 10]) (by decide)).2.1⟩

unseal Rat.mul Rat.add Rat.inv Rat.sub in
/-- C5 counterexample: the calendar channel `day_of_week` — which did not
exist before augmentation — does receive a lag channel: the final schema
contains `day_of_week_lag1`. -/
theorem C5_calendar_lag_cex :
    "day_of_week_lag1" ∈ (codeTail meanQ ts5 tbl1).map Prod.fst
    ∧ "day_of_week" ∉ tbl1.map Prod.fst := by
  decide

/-- C5 (amended): the lag/rolling loop derives its three channels for
exactly the non-timestamp columns present at loop entry — the original
channels **and** the four calendar channels — and for nothing else (the
derived channels themselves receive no further channels). -/
theorem C5_lag_loop_columns (stdf : List ℚ → ℚ) (ts : List Ts) (t : Table) :
    (lagRollingStage stdf (scaleStage (calendarStage ts t))).map Prod.fst
      = (t.map Prod.fst ++ ["day_of_week", "day_of_month", "month", "hour"])
        ++ (t.map Prod.fst ++ ["day_of_week", "day_of_month", "month", "hour"]).flatMap
            (fun n => [n ++ "_lag1", n ++ "_rolling_mean", n ++ "_rolling_std"]) := by
  rw [lagRollingStage_names, scaleStage_names, calendarStage_names]

/-! Sorting and quantile lemmas used for the zero-IQR analysis. -/

lemma mem_insertSorted {x y : ℚ} {l : List ℚ} :
    y ∈ insertSorted x l ↔ y = x ∨ y ∈ l := by
  induction l with
  | nil => simp [insertSorted]
  | cons a l ih =>
      rw [insertSorted]
      split_ifs with h
      · simp [List.mem_cons]
      · simp only [List.mem_cons, ih]
        tauto

lemma length_insertSorted (x : ℚ) (l : List ℚ) :
    (insertSorted x l).length = l.length + 1 := by
  induction l with
  | nil => rfl
  | cons a l ih =>
      rw [insertSorted]
      split_ifs with h <;> simp [ih]

lemma mem_sortQ {y : ℚ} {l : List ℚ} : y ∈ sortQ l ↔ y ∈ l := by
  induction l with
  | nil => simp [sortQ]
  | cons a l ih =>
      rw [sortQ, mem_insertSorted]
      simp [ih]

lemma length_sortQ (l : List ℚ) : (sortQ l).length = l.length := by
  induction l with
  | nil => rfl
  | cons a l ih =>
      rw [sortQ, length_insertSorted, ih]
      simp

lemma getD_eq_of_all {c : ℚ} {l : List ℚ} (hall : ∀ v ∈ l, v = c) {i : ℕ}
    (hi : i < l.length) (d : ℚ) : l.getD i d = c := by
  rw [List.getD_eq_getElem l d hi]
  exact hall _ (List.getElem_mem hi)

/-- Linear interpolation between equal order statistics is the common
value: the quantile of a constant list is that constant. -/
lemma quantileOf_const {c : ℚ} {vals : List ℚ} (hne : vals ≠ [])
    (hall : ∀ v ∈ vals, v = c) {q : ℚ} (hq0 : 0 ≤ q) (hq1 : q ≤ 1) :
    quantileOf vals q = c := by
  have hallS : ∀ v ∈ sortQ vals, v = c := fun v hv => hall v (mem_sortQ.mp hv)
  have hlen : (sortQ vals).length = vals.length := length_sortQ vals
  have hpos : 0 < vals.length := List.length_pos.mpr hne
  have hn1 : (1:ℚ) ≤ ((sortQ vals).length : ℚ) := by
    rw [hlen]
    exact_mod_cast hpos
  have hp0 : 0 ≤ q * (((sortQ vals).length : ℚ) - 1) :=
    mul_nonneg hq0 (by linarith)
  have hp1 : q * (((sortQ vals).length : ℚ) - 1) ≤ ((sortQ vals).length : ℚ) - 1 :=
    mul_le_of_le_one_left (by linarith) hq1
  have hfl0 : 0 ≤ ⌊q * (((sortQ vals).length : ℚ) - 1)⌋ := Int.floor_nonneg.mpr hp0
  have hflle : (⌊q * (((sortQ vals).length : ℚ) - 1)⌋ : ℚ) ≤ ((sortQ vals).length : ℚ) - 1 :=
    le_trans (Int.floor_le _) hp1
  have hidx : (⌊q * (((sortQ vals).length : ℚ) - 1)⌋).toNat < (sortQ vals).length := by
    have : (⌊q * (((sortQ vals).length : ℚ) - 1)⌋ : ℚ) < ((sortQ vals).length : ℚ) := by
      linarith
    have hz : ⌊q * (((sortQ vals).length : ℚ) - 1)⌋ < ((sortQ vals).length : ℤ) := by
      exact_mod_cast this
    omega
  have ha : (sortQ vals).getD (⌊q * (((sortQ vals).length : ℚ) - 1)⌋).toNat 0 = c :=
    getD_eq_of_all hallS hidx 0
  have hb : (sortQ vals).getD ((⌊q * (((sortQ vals).length : ℚ) - 1)⌋).toNat + 1)
      ((sortQ vals).getD (⌊q * (((sortQ vals).length : ℚ) - 1)⌋).toNat 0) = c := by
    rcases lt_or_ge ((⌊q * (((sortQ vals).length : ℚ) - 1)⌋).toNat + 1)
        (sortQ vals).length with hlt | hge
    · exact getD_eq_of_all hallS hlt _
    · rw [List.getD_eq_default _ _ hge]
      exact ha
  simp only [quantileOf]
  rw [hb, ha]
  ring

unseal Rat.mul Rat.add Rat.inv Rat.sub in
/-- C6 counterexample: the one-column table `[0,0,0,0,5]` has IQR zero
(`Q1 = Q3 = 0`), yet the row holding 5 is dropped on account of that
column — the filter is not a no-op for a zero-IQR column. -/
theorem C6_zero_iqr_cex :
    iqrAt zeroIqrRows 0 = 0
    ∧ outlierFilter 1 zeroIqrRows = [[some 0], [some 0], [some 0], [some 0]]
    ∧ [some 5] ∈ zeroIqrRows ∧ [some 5] ∉ outlierFilter 1 zeroIqrRows := by
  decide

/-- C6 (amended): when a column's IQR is zero the bounds collapse to the
single point `Q1 = Q3`, so a present value is flagged as an outlier in
that column exactly when it differs from `Q1`; the filter is a genuine
no-op for the column only in the constant case: a column whose present
cells all hold one value has IQR zero and never flags any row. -/
theorem C6_zero_iqr (rows : List Row) (j : ℕ) :
    (iqrAt rows j = 0 →
      ∀ v : ℚ, ((v < loBound rows j ∨ hiBound rows j < v) ↔ v ≠ q1At rows j))
    ∧ (∀ c : ℚ, rows ≠ [] → (∀ r ∈ rows, r.getD j none = some c) →
        iqrAt rows j = 0
        ∧ ∀ r ∈ rows, ¬ ∃ v : ℚ, r.getD j none = some v ∧
            (v < loBound rows j ∨ hiBound rows j < v)) := by
  constructor
  · intro hiqr v
    have hq : q3At rows j = q1At rows j := by
      have := hiqr
      unfold iqrAt at this
      linarith
    unfold loBound hiBound
    rw [hiqr, hq]
    constructor
    · rintro (h | h)
      · intro he
        rw [he] at h
        linarith
      · intro he
        rw [he] at h
        linarith
    · intro hne
      rcases hne.lt_or_lt with h | h
      · left
        linarith
      · right
        linarith
  · intro c hne hconst
    have hcells : ∀ o ∈ colAt rows j, o = some c := by
      intro o ho
      rw [colAt] at ho
      obtain ⟨r, hr, rfl⟩ := List.mem_map.mp ho
      exact hconst r hr
    have hvals : ∀ v ∈ presentVals (colAt rows j), v = c := by
      intro v hv
      rw [presentVals] at hv
      obtain ⟨o, ho, hvo⟩ := List.mem_filterMap.mp hv
      rw [hcells o ho] at hvo
      exact (Option.some.inj hvo).symm
    have hpne : presentVals (colAt rows j) ≠ [] := by
      obtain ⟨r, hr⟩ := List.exists_mem_of_ne_nil rows hne
      have hmem : some c ∈ colAt rows j := by
        rw [colAt]
        exact List.mem_map.mpr ⟨r, hr, hconst r hr⟩
      have : c ∈ presentVals (colAt rows j) := by
        rw [presentVals]
        exact List.mem_filterMap.mpr ⟨some c, hmem, rfl⟩
      exact List.ne_nil_of_mem this
    have hq1 : q1At rows j = c := by
      rw [q1At]
      exact quantileOf_const hpne hvals (by norm_num) (by norm_num)
    have hq3 : q3At rows j = c := by
      rw [q3At]
      exact quantileOf_const hpne hvals (by norm_num) (by norm_num)
    have hiqr : iqrAt rows j = 0 := by
      rw [iqrAt, hq1, hq3]
      ring
    refine ⟨hiqr, ?_⟩
    rintro r hr ⟨v, hv, hvi⟩
    rw [hconst r hr] at hv
    have hvc : v = c := (Option.some.inj hv).symm
    subst hvc
    unfold loBound hiBound at hvi
    rw [hiqr, hq1, hq3] at hvi
    rcases hvi with h | h <;> linarith

unseal Rat.mul Rat.add Rat.inv Rat.sub in
theorem C6_zero_iqr_witness :
    (iqrAt [[some 2], [some 2]] 0 = 0
      ∧ ∀ r ∈ [[some (2:ℚ)], [some 2]], ¬ ∃ v : ℚ, r.getD 0 none = some v ∧
          (v < loBound [[some 2], [some 2]] 0 ∨ hiBound [[some 2], [some 2]] 0 < v))
    ∧ (((5:ℚ) < loBound zeroIqrRows 0 ∨ hiBound zeroIqrRows 0 < 5) ↔
        (5:ℚ) ≠ q1At zeroIqrRows 0) :=
  ⟨(C6_zero_iqr [[some 2], [some 2]] 0).2 2 (by decide) (by decide),
   (C6_zero_iqr zeroIqrRows 0).1 (by decide) 5⟩

/-- A row's violation flag, as a proposition: some numeric cell among the
first `ncols` columns lies strictly outside its column's bounds. -/
lemma rowViolates_iff (rows : List Row) (ncols : ℕ) (r : Row) :
    rowViolates rows ncols r = true ↔
      ∃ j < ncols, ∃ v : ℚ, r.getD j none = some v ∧
        (v < loBound rows j ∨ hiBound rows j < v) := by
  rw [rowViolates, List.any_eq_true]
  constructor
  · rintro ⟨j, hj, hf⟩
    refine ⟨j, List.mem_range.mp hj, ?_⟩
    cases hcell : r.getD j none with
    | none =>
        rw [hcell] at hf
        cases hf
    | some v =>
        rw [hcell] at hf
        simp only [Bool.or_eq_true, decide_eq_true_eq] at hf
        exact ⟨v, rfl, hf⟩
  · rintro ⟨j, hj, v, hv, hvi⟩
    refine ⟨j, List.mem_range.mpr hj, ?_⟩
    rw [hv]
    simp only [Bool.or_eq_true, decide_eq_true_eq]
    exact hvi

/-- C7: the outlier filter keeps a row iff every present numeric cell in
the first `ncols` columns lies within `[Q1 − 1.5·IQR, Q3 + 1.5·IQR]` of
its column (bounds computed once, on the input table), and the surviving
rows are unchanged, in their original relative order. -/
theorem C7_outlier_filter (ncols : ℕ) (rows : List Row) :
    (outlierFilter ncols rows).Sublist rows
    ∧ (∀ r : Row, r ∈ outlierFilter ncols rows ↔ r ∈ rows ∧
        ∀ j < ncols, ∀ v : ℚ, r.getD j none = some v →
          loBound rows j ≤ v ∧ v ≤ hiBound rows j) := by
  constructor
  · exact List.filter_sublist rows
  · intro r
    rw [outlierFilter, List.mem_filter, Bool.not_eq_eq_eq_not, Bool.not_true]
    constructor
    · rintro ⟨hmem, hkeep⟩
      refine ⟨hmem, ?_⟩
      intro j hj v hv
      by_contra hc
      push_neg at hc
      have hviol : rowViolates rows ncols r = true := by
        rw [rowViolates_iff]
        refine ⟨j, hj, v, hv, ?_⟩
        rcases lt_or_ge v (loBound rows j) with h | h
        · exact Or.inl h
        · exact Or.inr (hc h)
      rw [hviol] at hkeep
      cases hkeep
    · rintro ⟨hmem, hok⟩
      refine ⟨hmem, ?_⟩
      cases hviol : rowViolates rows ncols r with
      | false => rfl
      | true =>
          obtain ⟨j, hj, v, hv, hvi⟩ := (rowViolates_iff rows ncols r).mp hviol
          obtain ⟨hl, hr⟩ := hok j hj v hv
          rcases hvi with h | h <;> linarith

unseal Rat.mul Rat.add Rat.inv Rat.sub in
theorem C7_outlier_filter_witness :
    ([some (5:ℚ)] ∈ outlierFilter 1 [[some (5:ℚ)], [some 6]] ↔
      [some (5:ℚ)] ∈ [[some (5:ℚ)], [some 6]] ∧
        ∀ j < 1, ∀ v : ℚ, [some (5:ℚ)].getD j none = some v →
          loBound [[some (5:ℚ)], [some 6]] j ≤ v ∧
            v ≤ hiBound [[some (5:ℚ)], [some 6]] j) :=
  (C7_outlier_filter 1 [[some (5:ℚ)], [some 6]]).2 [some 5]

/-! Totality of forward-then-backward fill. -/

lemma ffillAux_some_total : ∀ (l : Col) (x : ℚ), ∀ y ∈ ffillAux (some x) l, y.isSome = true := by
  intro l
  induction l with
  | nil =>
      intro x y hy
      simp [ffillAux] at hy
  | cons hd tl ih =>
      intro x y hy
      cases hd with
      | none =>
          simp only [ffillAux, List.mem_cons] at hy
          rcases hy with rfl | hy
          · rfl
          · exact ih x y hy
      | some z =>
          simp only [ffillAux, List.mem_cons] at hy
          rcases hy with rfl | hy
          · rfl
          · exact ih z y hy

lemma getLast?_cons_of_ne_nil {a : Option ℚ} {l : List (Option ℚ)} (h : l ≠ []) :
    (a :: l).getLast? = l.getLast? := by
  cases l with
  | nil => exact absurd rfl h
  | cons b bs => rw [List.getLast?_cons_cons]

lemma ffillAux_ne_nil (carry : Option ℚ) {l : Col} (h : l ≠ []) :
    ffillAux carry l ≠ [] := by
  cases l with
  | nil => exact absurd rfl h
  | cons hd tl => cases hd <;> simp [ffillAux]

/-- Once the column contains a present value (or a present carry flows
in), the forward fill ends on a present value. -/
lemma ffillAux_getLast_some :
    ∀ (l : Col) (carry : Option ℚ),
      ((∃ y ∈ l, y.isSome = true) ∨ (l ≠ [] ∧ carry.isSome = true)) →
      ∃ z : ℚ, (ffillAux carry l).getLast? = some (some z) := by
  intro l
  induction l with
  | nil =>
      intro carry h
      rcases h with ⟨y, hy, _⟩ | ⟨hne, _⟩
      · simp at hy
      · exact absurd rfl hne
  | cons hd tl ih =>
      intro carry h
      cases hne : tl.isEmpty with
      | true =>
          have htl : tl = [] := List.isEmpty_iff.mp hne
          subst htl
          cases hd with
          | some z => exact ⟨z, rfl⟩
          | none =>
              rcases h with ⟨y, hy, hys⟩ | ⟨_, hc⟩
              · simp at hy
                subst hy
                cases hys
              · obtain ⟨z, hz⟩ := Option.isSome_iff_exists.mp hc
                exact ⟨z, by rw [hz]; rfl⟩
      | false =>
          have htl : tl ≠ [] := by
            intro hx
            rw [hx] at hne
            cases hne
          cases hd with
          | some z =>
              obtain ⟨w, hw⟩ := ih (some z) (Or.inr ⟨htl, rfl⟩)
              refine ⟨w, ?_⟩
              show (some z :: ffillAux (some z) tl).getLast? = some (some w)
              rw [getLast?_cons_of_ne_nil (ffillAux_ne_nil _ htl)]
              exact hw
          | none =>
              have hih : (∃ y ∈ tl, y.isSome = true) ∨ (tl ≠ [] ∧ carry.isSome = true) := by
                rcases h with ⟨y, hy, hys⟩ | ⟨_, hc⟩
                · rcases List.mem_cons.mp hy with rfl | hy'
                  · cases hys
                  · exact Or.inl ⟨y, hy', hys⟩
                · exact Or.inr ⟨htl, hc⟩
              obtain ⟨w, hw⟩ := ih carry hih
              refine ⟨w, ?_⟩
              show (carry :: ffillAux carry tl).getLast? = some (some w)
              rw [getLast?_cons_of_ne_nil (ffillAux_ne_nil _ htl)]
              exact hw

/-- Forward fill followed by backward fill leaves no missing cell,
provided the column holds at least one present value. -/
lemma fill_total {c : Col} (h : ∃ y ∈ c, y.isSome = true) :
    ∀ y ∈ bfill (ffill c), y.isSome = true := by
  obtain ⟨z, hz⟩ := ffillAux_getLast_some c none (Or.inl h)
  have hhead : (ffill c).reverse.head? = some (some z) := by
    rw [List.head?_reverse]
    exact hz
  cases hrev : (ffill c).reverse with
  | nil =>
      rw [hrev] at hhead
      cases hhead
  | cons a rest =>
      rw [hrev] at hhead
      have ha : a = some z := by
        injection hhead
      subst ha
      intro y hy
      rw [bfill, List.mem_reverse, hrev] at hy
      simp only [ffillAux, List.mem_cons] at hy
      rcases hy with rfl | hy
      · rfl
      · exact ffillAux_some_total rest z y hy

unseal Rat.mul Rat.add Rat.inv Rat.sub in
/-- C8 counterexample: in `c8rows` every column of the *input* table has
a non-missing value, but the outlier filter drops row 0 (column 1's value
100 is an outlier), which held column 0's only present value — so the
filled output still contains missing cells. -/
theorem C8_imputation_cex :
    ((tableCols 2 c8rows).all (fun c => c.any (fun y => y.isSome)) = true)
    ∧ ¬ ((filterImpute 2 c8rows).all (fun c => c.all (fun y => y.isSome)) = true) := by
  decide

/-- C8 (amended): if every column still has at least one non-missing
value among the rows surviving outlier removal, the filled output has no
missing cells; and the same forward/backward fill, applied after
augmentation, removes the undefined leading entries of the lag channel
(column length ≥ 2) and of any 5-row rolling channel (column length ≥ 5)
of a fully-present column. -/
theorem C8_imputation (ncols : ℕ) (rows : List Row)
    (h : ∀ c ∈ tableCols ncols (outlierFilter ncols rows), ∃ y ∈ c, y.isSome = true) :
    (∀ c ∈ filterImpute ncols rows, ∀ y ∈ c, y.isSome = true)
    ∧ (∀ xs : List ℚ, 2 ≤ xs.length →
        ∀ y ∈ bfill (ffill (shift1O (xs.map some))), y.isSome = true)
    ∧ (∀ (f : List ℚ → ℚ) (xs : List ℚ), 5 ≤ xs.length →
        ∀ y ∈ bfill (ffill (rollingApplyO 5 f (xs.map some))), y.isSome = true) := by
  refine ⟨?_, ?_, ?_⟩
  · intro c hc
    rw [filterImpute] at hc
    obtain ⟨c0, hc0, rfl⟩ := List.mem_map.mp hc
    exact fill_total (h c0 hc0)
  · intro xs hlen
    apply fill_total
    match xs, hlen with
    | a :: b :: xs'', _ =>
      refine ⟨some a, ?_, rfl⟩
      simp [shift1O]
  · intro f xs hlen
    apply fill_total
    refine ⟨some (f (xs.take 5)), ?_, rfl⟩
    rw [rollingApplyO]
    apply List.mem_map.mpr
    refine ⟨4, List.mem_range.mpr (by simp; omega), ?_⟩
    rw [if_pos (by norm_num : (5:ℕ) ≤ 4 + 1)]
    have h1 : (4:ℕ) + 1 - 5 = 0 := rfl
    simp only [h1, List.drop_zero]
    have hall : ((List.map some xs).take 5).all Option.isSome = true := by
      rw [List.all_eq_true]
      intro x hx
      obtain ⟨v, _, rfl⟩ := List.mem_map.mp (List.mem_of_mem_take hx)
      rfl
    rw [if_pos hall]
    congr 1
    rw [← List.map_take, List.filterMap_map]
    simp

unseal Rat.mul Rat.add Rat.inv Rat.sub in
theorem C8_imputation_witness :
    (∀ c ∈ filterImpute 1 [[some (1:ℚ)], [none]], ∀ y ∈ c, y.isSome = true)
    ∧ (∀ y ∈ bfill (ffill (shift1O ([(1:ℚ), 2].map some))), y.isSome = true)
    ∧ (∀ y ∈ bfill (ffill (rollingApplyO 5 meanQ ([(1:ℚ), 2, 3, 4, 5].map some))),
        y.isSome = true) :=
  ⟨(C8_imputation 1 [[some (1:ℚ)], [none]] (by decide)).1,
   (C8_imputation 1 [[some (1:ℚ)], [none]] (by decide)).2.1 [1, 2] (by norm_num),
   (C8_imputation 1 [[some (1:ℚ)], [none]] (by decide)).2.2 meanQ [1, 2, 3, 4, 5]
     (by norm_num)⟩

lemma sum_zipWith_eq (f : ℚ → ℚ → ℚ) :
    ∀ (p t : List ℚ), p.length = t.length →
      (List.zipWith f p t).sum = ∑ i ∈ Finset.range p.length, f (p.getD i 0) (t.getD i 0) := by
  intro p
  induction p with
  | nil =>
      intro t h
      simp
  | cons a p ih =>
      intro t h
      cases t with
      | nil => simp at h
      | cons b t =>
          simp only [List.zipWith_cons_cons, List.sum_cons, List.length_cons]
          rw [Finset.sum_range_succ']
          simp only [List.getD_cons_succ, List.getD_cons_zero]
          rw [ih t (by simpa using h)]
          ring

unseal Rat.mul Rat.add Rat.inv Rat.sub in
/-- C9: the evaluation reducer flattens predictions and ground truth in
matching order and returns the mean of elementwise squared differences;
in particular predictions `[1,2,3]` against truth `[1,2,4]` give
`1/3`. -/
theorem C9_eval_mse (predictions label_ids : List (List ℚ))
    (h : predictions.flatten.length = label_ids.flatten.length) :
    evalReducer predictions label_ids
      = (∑ i ∈ Finset.range predictions.flatten.length,
          (predictions.flatten.getD i 0 - label_ids.flatten.getD i 0) ^ 2)
        / predictions.flatten.length
    ∧ evalReducer [[1, 2, 3]] [[1, 2, 4]] = 1/3 := by
  constructor
  · rw [evalReducer, mean_squared_error, sum_zipWith_eq _ _ _ h.symm, ← h]
    congr 1
    apply Finset.sum_congr rfl
    intro i _
    ring
  · decide

theorem C9_eval_mse_witness :
    evalReducer [[(1:ℚ), 2, 3]] [[(1:ℚ), 2, 4]]
      = (∑ i ∈ Finset.range ([[(1:ℚ), 2, 3]].flatten.length),
          ([[(1:ℚ), 2, 3]].flatten.getD i 0 - [[(1:ℚ), 2, 4]].flatten.getD i 0) ^ 2)
        / [[(1:ℚ), 2, 3]].flatten.length
    ∧ evalReducer [[1, 2, 3]] [[1, 2, 4]] = 1/3 :=
  C9_eval_mse [[1, 2, 3]] [[1, 2, 4]] (by decide)

/-- C10: derived features are computed over the full table before the
split, so at any split boundary `b` (with `1 ≤ b < |xs|`): the first row
of the right-hand segment has a lag-1 value equal to the last row of the
left-hand (e.g. training) segment, and its 5-row rolling window
aggregates the last four rows of the left segment together with the
boundary row itself. -/
theorem C10_boundary_features (xs : List ℚ) (f : List ℚ → ℚ) (b : ℕ)
    (hb1 : 1 ≤ b) (hb2 : b < xs.length) :
    ((shift1O (xs.map some)).drop b).head? = some (some (xs.getD (b-1) 0))
    ∧ (xs.take b).getLast? = some (xs.getD (b-1) 0)
    ∧ (4 ≤ b →
        ((rollingApplyO 5 f (xs.map some)).drop b).head?
          = some (some (f ((xs.drop (b-4)).take 5)))
        ∧ (xs.drop (b-4)).take 5 = ((xs.take b).drop (b-4)) ++ [xs.getD b 0]) := by
  have hb1' : b - 1 < xs.length := by omega
  refine ⟨?_, ?_, ?_⟩
  · rw [List.head?_drop, shift1O, List.getElem?_take]
    rw [if_pos (by simpa using hb2)]
    obtain ⟨k, rfl⟩ : ∃ k, b = k + 1 := ⟨b - 1, by omega⟩
    rw [List.getElem?_cons_succ, List.getElem?_map,
      List.getElem?_eq_getElem (by simpa using hb1'), List.getD_eq_getElem xs 0 hb1']
    simp
  · rw [List.getLast?_eq_getElem?, List.length_take]
    have hmin : min b xs.length = b := by omega
    rw [hmin, List.getElem?_take, if_pos (by omega), List.getElem?_eq_getElem hb1',
      List.getD_eq_getElem xs 0 hb1']
  · intro hb4
    constructor
    · rw [List.head?_drop, rollingApplyO, List.getElem?_map,
        List.getElem?_range (by simpa using hb2)]
      have h15 : b + 1 - 5 = b - 4 := by omega
      have h5 : 5 ≤ b + 1 := by omega
      rw [Option.map_some']
      simp only [h5, if_true, h15]
      rw [← List.map_drop, ← List.map_take]
      have hall : (((xs.drop (b-4)).take 5).map some).all Option.isSome = true := by
        rw [List.all_eq_true]
        intro x hx
        obtain ⟨v, _, rfl⟩ := List.mem_map.mp hx
        rfl
      rw [if_pos hall, List.filterMap_map]
      simp
    · have hdt : (xs.take b).drop (b-4) = (xs.drop (b-4)).take 4 := by
        rw [List.drop_take]
        congr 1
        omega
      rw [hdt, show (5:ℕ) = 4 + 1 from rfl, List.take_succ, List.getElem?_drop,
        show b - 4 + 4 = b by omega, List.getElem?_eq_getElem hb2,
        List.getD_eq_getElem xs 0 hb2]
      rfl

theorem C10_boundary_features_witness :
    ((shift1O ([(0:ℚ), 1, 2, 3, 4, 5].map some)).drop 5).head?
        = some (some ([(0:ℚ), 1, 2, 3, 4, 5].getD 4 0))
    ∧ ([(0:ℚ), 1, 2, 3, 4, 5].take 5).getLast? = some ([(0:ℚ), 1, 2, 3, 4, 5].getD 4 0)
    ∧ ((rollingApplyO 5 meanQ ([(0:ℚ), 1, 2, 3, 4, 5].map some)).drop 5).head?
        = some (some (meanQ (([(0:ℚ), 1, 2, 3, 4, 5].drop 1).take 5)))
    ∧ ([(0:ℚ), 1, 2, 3, 4, 5].drop 1).take 5
        = (([(0:ℚ), 1, 2, 3, 4, 5].take 5).drop 1) ++ [[(0:ℚ), 1, 2, 3, 4, 5].getD 5 0] := by
  have h := C10_boundary_features [0, 1, 2, 3, 4, 5] meanQ 5 (by norm_num) (by norm_num)
  exact ⟨h.1, h.2.1, (h.2.2 (by norm_num)).1, (h.2.2 (by norm_num)).2⟩

end ForecastHub
